import Mathlib

/-! Shallow embedding of the SAH (Surface Area Heuristic) BVH partitioner
of foundation/math/bvh/bvh_sahpartitioner.h (class SAHPartitioner).

Modelling choices:
* The scalar ValueType is modelled by exact rationals (Rat).  Division by a
  zero half surface area, which in IEEE arithmetic yields NaN or Inf, follows
  the Lean convention x / 0 = 0; both models agree that the comparison
  leaf_cost <= split_cost then fails (NaN compares false), so the degenerate
  control flow coincides.
* A D-dimensional axis-aligned box is a list of (min, max) coordinate pairs.
  An AABB in the "invalidated" state (AABB::invalidate) is modelled as none;
  AABB::insert on an invalidated box yields the inserted box, exactly as the
  plus-infinity and minus-infinity sentinel bounds behave on real
  (finite) boxes.
* The sentinel best_split_cost = numeric_limits::max() is modelled as an
  Option that is none until the first candidate is examined: over exact
  rationals there is no greatest element, and every float split cost is below
  the sentinel, so the first scanned candidate always replaces it.
* The partitioner's mutable members m_indices and m_left_areas are threaded
  as an explicit state record; partition returns the split position together
  with the updated state.
-/

namespace SAH

/-- A D-dimensional axis-aligned box: one (min, max) pair per dimension.
The AABB type itself is external to the partitioner (a template parameter). -/
abbrev Box := List (Rat × Rat)

/-- An AABB value as used by the accumulation loops: none models the
invalidated (empty) state produced by AABB::invalidate. -/
abbrev AABB := Option Box

/-- Fetch a box from the caller-owned box array. -/
def boxGet (bboxes : List Box) (i : Nat) : Box := bboxes.getD i []

/-- Modelled from the spec: AABB::insert grows a box to include another box,
componentwise min of the lower bounds and max of the upper bounds.  The
concrete AABB class (foundation/math/aabb.h) is not part of the excerpted
source; the spec describes insert as "grow to include another box". -/
def boxMerge (a b : Box) : Box :=
  List.zipWith (fun p q => (min p.1 q.1, max p.2 q.2)) a b

/-- AABB::insert including the invalidated state: inserting into an
invalidated accumulator yields the inserted box. -/
def aabbInsert (acc : AABB) (b : Box) : AABB :=
  match acc with
  | none => some b
  | some a => some (boxMerge a b)

/-- Modelled from the spec: half_surface_area, "half the total surface area
of a box" (glossary); for a box with extents e_0 .. e_(D-1) this is the sum
of the products e_i * e_j over all pairs i < j (for D = 3:
e_x e_y + e_x e_z + e_y e_z).  The concrete AABB class is not part of the
excerpted source. -/
def pairProducts : List Rat → Rat
  | [] => 0
  | e :: es => e * es.sum + pairProducts es

/-- Half surface area of a (non-invalidated) box. -/
def boxHalfArea (b : Box) : Rat :=
  pairProducts (b.map (fun p => p.2 - p.1))

/-- Half surface area of an AABB value.  The algorithm only ever evaluates it
on accumulators that received at least one insert; the value on none is an
arbitrary default. -/
def half_surface_area : AABB → Rat
  | none => 0
  | some b => boxHalfArea b

/-- Union of the boxes of a list of item indices, accumulated left to right
from an invalidated accumulator (the shape of every accumulation loop in the
source). -/
def unionIdxs (bboxes : List Box) (l : List Nat) : AABB :=
  l.foldl (fun acc i => aabbInsert acc (boxGet bboxes i)) none

/-- Modelled from the spec: the BboxSortPredicate (§4.1,
bvh_bboxsortpredicate.h is not part of the excerpted source) orders item
indices by the centroid coordinate (min + max) / 2 of their boxes along one
axis. -/
def centroid (b : Box) (d : Nat) : Rat :=
  ((b.getD d (0, 0)).1 + (b.getD d (0, 0)).2) / 2

/-- Modelled from the spec: the sort predicate's ordering as a total
reflexive relation; ties in the centroid coordinate are broken
deterministically by the item index (§4.1: "Ties (equal coordinate) must be
broken deterministically - e.g. by original item index"). -/
def axisLe (bboxes : List Box) (d : Nat) (i j : Nat) : Bool :=
  let ki := centroid (boxGet bboxes i) d
  let kj := centroid (boxGet bboxes j) d
  if ki < kj then true
  else if kj < ki then false
  else decide (i ≤ j)

/-- Insert one index into a list sorted by le (auxiliary of the sort). -/
def insertOrd (le : Nat → Nat → Bool) (x : Nat) : List Nat → List Nat
  | [] => [x]
  | y :: ys => if le x y then x :: y :: ys else y :: insertOrd le x ys

/-- Deterministic comparison sort by a total relation; models std::sort with
the (total, index-tie-broken) predicate: any comparison sort run with a total
antisymmetric predicate produces this unique sorted arrangement. -/
def sortIndices (le : Nat → Nat → Bool) : List Nat → List Nat
  | [] => []
  | x :: xs => insertOrd le x (sortIndices le xs)

/-- The sub-range view m_indices[bgn .. bgn+count). -/
def slice (l : List Nat) (bgn count : Nat) : List Nat :=
  (l.drop bgn).take count

/-- Replace the sub-range [bgn, bgn+count) of the index array. -/
def setSlice (l : List Nat) (bgn count : Nat) (s : List Nat) : List Nat :=
  l.take bgn ++ s ++ l.drop (bgn + count)

/-- std::sort(&m_indices[begin], &m_indices[begin] + count, predicate):
sort the sub-range in place by the axis-d predicate. -/
def sortRange (bboxes : List Box) (d : Nat) (bgn count : Nat)
    (l : List Nat) : List Nat :=
  setSlice l bgn count (sortIndices (axisLe bboxes d) (slice l bgn count))

/-- Modelled from the spec: ensure_minimum_size (foundation/utility/memory.h
is not part of the excerpted source) grows the scratch buffer to at least n
slots and never shrinks it (§3: "grown monotonically, never shrunk");
fresh slots are default-initialized. -/
def ensure_minimum_size (l : List Rat) (n : Nat) : List Rat :=
  if l.length < n then l ++ List.replicate (n - l.length) 0 else l

/-- Partitioner configuration (constructor arguments, immutable). -/
structure SAHConfig where
  max_leaf_size : Nat
  interior_node_traversal_cost : Rat
  triangle_intersection_cost : Rat

/-- The partitioner's mutable members: the item index array m_indices and
the scratch buffer m_left_areas. -/
structure PartitionerState where
  indices : List Nat
  left_areas : List Rat

/-- SAHPartitioner::initialize: resize the index array to the item count and
fill it with the identity permutation m_indices[i] = i. -/
def initIndices (size : Nat) : List Nat := List.range size

/-- SAHPartitioner::compute_bbox: union of the boxes of the items currently
at positions [bgn, ed) of the index array. -/
def compute_bbox (bboxes : List Box) (idxs : List Nat) (bgn ed : Nat) : AABB :=
  unionIdxs bboxes (slice idxs bgn (ed - bgn))

/-- SAHPartitioner::get_item_ordering: the current index permutation. -/
def get_item_ordering (st : PartitionerState) : List Nat := st.indices

/-- The left-to-right sweep: walk the items, accumulate their boxes and
record the half surface area after each insertion (the values written into
m_left_areas[0 .. count-2]). -/
def leftSweep (bboxes : List Box) (acc : AABB) : List Nat → List Rat
  | [] => []
  | i :: is =>
    let acc2 := aabbInsert acc (boxGet bboxes i)
    half_surface_area acc2 :: leftSweep bboxes acc2 is

/-- Keep track of the partition with the lowest cost: replace the best
candidate exactly when its cost is strictly above the new cost (C++:
if (best_split_cost > split_cost)).  none models the initial
numeric_limits::max() sentinel. -/
def updateBest (best : Option (Rat × Nat × Nat)) (sc : Rat) (d i : Nat) :
    Option (Rat × Nat × Nat) :=
  match best with
  | none => some (sc, d, i)
  | some (bc, bd, bi) => if bc > sc then some (sc, d, i) else some (bc, bd, bi)

/-- The right-to-left sweep of one axis: the C++ loop
for (i = count-1; i > 0; --i).  The first argument of the recursion is the
loop counter i; acc is the right-to-left box accumulator, best the running
lowest-cost candidate.  At counter value i the loop body inserts the box of
the item at position i, reads m_left_areas[i-1] and forms the split cost of
pivot i. -/
def rightSweep (bboxes : List Box) (sub : List Nat) (count : Nat)
    (la : List Rat) (d : Nat) :
    Nat → AABB → Option (Rat × Nat × Nat) → Option (Rat × Nat × Nat)
  | 0, _, best => best
  | i + 1, acc, best =>
    let acc2 := aabbInsert acc (boxGet bboxes (sub.getD (i + 1) 0))
    let lc := la.getD i 0 * ((i + 1 : Nat) : Rat)
    let rc := half_surface_area acc2 * ((count - (i + 1) : Nat) : Rat)
    rightSweep bboxes sub count la d i acc2 (updateBest best (lc + rc) d (i + 1))

/-- One iteration of the axis loop: sort the sub-range by axis d, run the
left sweep (overwriting the first count-1 scratch slots) and the right sweep
(updating the best candidate). -/
def axisStep (bboxes : List Box) (bgn count : Nat) (d : Nat)
    (idxs : List Nat) (la : List Rat) (best : Option (Rat × Nat × Nat)) :
    List Nat × List Rat × Option (Rat × Nat × Nat) :=
  let idxs2 := sortRange bboxes d bgn count idxs
  let sub := slice idxs2 bgn count
  let la2 := leftSweep bboxes none (sub.take (count - 1)) ++ la.drop (count - 1)
  let best2 := rightSweep bboxes sub count la2 d (count - 1) none best
  (idxs2, la2, best2)

/-- The loop for (dim = 0; dim < Tree::Dimension; ++dim), over an explicit
list of axes (instantiated with List.range D). -/
def axisLoop (bboxes : List Box) (bgn count : Nat) :
    List Nat → List Nat × List Rat × Option (Rat × Nat × Nat) →
    List Nat × List Rat × Option (Rat × Nat × Nat)
  | [], s => s
  | d :: ds, (idxs, la, best) =>
    axisLoop bboxes bgn count ds (axisStep bboxes bgn count d idxs la best)

/-- SAHPartitioner::partition.  D is the compile-time constant
Tree::Dimension; bboxes the caller-owned box array (const reference, never
written); bbox the caller-supplied union box of the range; st the
partitioner's mutable members.  Returns the split position p and the updated
state. -/
def partition (cfg : SAHConfig) (D : Nat) (bboxes : List Box)
    (bgn ed : Nat) (bbox : AABB) (st : PartitionerState) :
    Nat × PartitionerState :=
  let count := ed - bgn
  if count ≤ cfg.max_leaf_size then (ed, st)
  else
    let la0 := ensure_minimum_size st.left_areas (count - 1)
    match axisLoop bboxes bgn count (List.range D) (st.indices, la0, none) with
    | (idxs, la, none) => (ed, ⟨idxs, la⟩)
    | (idxs, la, some (bc, bd, bi)) =>
      let split_cost := cfg.interior_node_traversal_cost +
        bc / half_surface_area bbox * cfg.triangle_intersection_cost
      let leaf_cost := ((count : Nat) : Rat) * cfg.triangle_intersection_cost
      if leaf_cost ≤ split_cost then (ed, ⟨idxs, la⟩)
      else
        let idxs2 := if bd < D - 1 then sortRange bboxes bd bgn count idxs else idxs
        (bgn + bi, ⟨idxs2, la⟩)

/-- Specification-side definition (following the words of the claims, to be
compared with the implementation): the split cost of pivot i on axis d is
left_half_area(i) * i + right_half_area(i) * (count - i), with the areas
taken of the union boxes of the first i and the remaining count - i items
after sorting by axis d. -/
def specAxisCosts (bboxes : List Box) (count : Nat) (sub : List Nat) : List Rat :=
  (List.range (count - 1)).map (fun j =>
    half_surface_area (unionIdxs bboxes (sub.take (j + 1))) * ((j + 1 : Nat) : Rat) +
    half_surface_area (unionIdxs bboxes (sub.drop (j + 1))) * ((count - (j + 1) : Nat) : Rat))

/-- Specification-side definition: all split costs, over every axis
d in [0, D) and every pivot position i in [1, count-1]. -/
def specSplitCosts (bboxes : List Box) (D : Nat) (bgn ed : Nat)
    (idxs : List Nat) : List Rat :=
  (List.range D).flatMap (fun d =>
    specAxisCosts bboxes (ed - bgn)
      (sortIndices (axisLe bboxes d) (slice idxs bgn (ed - bgn))))

/-- Running minimum of a list of costs (none on the empty list). -/
def oMin : Option Rat → Rat → Option Rat
  | none, c => some c
  | some m, c => some (min m c)

/-- Minimum of a list of costs as an Option. -/
def listMinO (l : List Rat) : Option Rat := l.foldl oMin none

/-- Specification-side definition: the minimum split cost over all axes and
pivot positions (the claims' best_split_cost). -/
def specBestSplitCost (bboxes : List Box) (D : Nat) (bgn ed : Nat)
    (idxs : List Nat) : Rat :=
  (listMinO (specSplitCosts bboxes D bgn ed idxs)).getD 0

/-- The pivot positions in the order the right-to-left sweep scans them:
count-1, count-2, .., 1. -/
def pivotsDesc : Nat → List Nat
  | 0 => []
  | i + 1 => (i + 1) :: pivotsDesc i

end SAH

namespace SAH

/-! Properties of the axis ordering: it is a total, transitive, antisymmetric
relation (lexicographic in (centroid coordinate, item index)). -/

/-- Characterization of the axis ordering. -/
theorem axisLe_iff (bboxes : List Box) (d i j : Nat) :
    axisLe bboxes d i j = true ↔
      (centroid (boxGet bboxes i) d < centroid (boxGet bboxes j) d ∨
       (centroid (boxGet bboxes i) d = centroid (boxGet bboxes j) d ∧ i ≤ j)) := by
  unfold axisLe
  dsimp only
  split_ifs with h1 h2
  · simp [h1]
  · constructor
    · intro hc; exact absurd hc (by simp)
    · rintro (h | ⟨h, _⟩)
      · exact absurd h h1
      · rw [h] at h2; exact absurd h2 (lt_irrefl _)
  · have heq : centroid (boxGet bboxes i) d = centroid (boxGet bboxes j) d :=
      le_antisymm (not_lt.mp h2) (not_lt.mp h1)
    simp [heq]

/-- The axis ordering is total. -/
theorem axisLe_total (bboxes : List Box) (d i j : Nat) :
    axisLe bboxes d i j = true ∨ axisLe bboxes d j i = true := by
  rw [axisLe_iff, axisLe_iff]
  rcases lt_trichotomy (centroid (boxGet bboxes i) d) (centroid (boxGet bboxes j) d)
    with h | h | h
  · exact Or.inl (Or.inl h)
  · rcases Nat.le_total i j with hij | hij
    · exact Or.inl (Or.inr ⟨h, hij⟩)
    · exact Or.inr (Or.inr ⟨h.symm, hij⟩)
  · exact Or.inr (Or.inl h)

/-- The axis ordering is antisymmetric (thanks to the index tie-break). -/
theorem axisLe_antisymm (bboxes : List Box) (d : Nat) {i j : Nat}
    (h1 : axisLe bboxes d i j = true) (h2 : axisLe bboxes d j i = true) : i = j := by
  rw [axisLe_iff] at h1 h2
  rcases h1 with h1 | ⟨h1, hij⟩ <;> rcases h2 with h2 | ⟨h2, hji⟩
  · exact absurd (h1.trans h2) (lt_irrefl _)
  · rw [h2] at h1; exact absurd h1 (lt_irrefl _)
  · rw [h1] at h2; exact absurd h2 (lt_irrefl _)
  · exact Nat.le_antisymm hij hji

/-- The axis ordering is transitive. -/
theorem axisLe_trans (bboxes : List Box) (d : Nat) {i j k : Nat}
    (h1 : axisLe bboxes d i j = true) (h2 : axisLe bboxes d j k = true) :
    axisLe bboxes d i k = true := by
  rw [axisLe_iff] at h1 h2 ⊢
  rcases h1 with h1 | ⟨h1, hij⟩ <;> rcases h2 with h2 | ⟨h2, hjk⟩
  · exact Or.inl (h1.trans h2)
  · exact Or.inl (h2 ▸ h1)
  · exact Or.inl (h1 ▸ h2)
  · exact Or.inr ⟨h1.trans h2, Nat.le_trans hij hjk⟩

/-! Properties of the deterministic sort. -/

/-- Inserting into a list yields a permutation of consing. -/
theorem insertOrd_perm (le : Nat → Nat → Bool) (x : Nat) (l : List Nat) :
    (insertOrd le x l).Perm (x :: l) := by
  induction l with
  | nil => simp [insertOrd]
  | cons y ys ih =>
    simp only [insertOrd]
    split
    · exact List.Perm.refl _
    · exact (ih.cons y).trans (List.Perm.swap x y ys)

/-- The sort permutes its input. -/
theorem sortIndices_perm (le : Nat → Nat → Bool) (l : List Nat) :
    (sortIndices le l).Perm l := by
  induction l with
  | nil => exact List.Perm.refl _
  | cons x xs ih => exact (insertOrd_perm le x (sortIndices le xs)).trans (ih.cons x)

/-- Sorted length. -/
theorem sortIndices_length (le : Nat → Nat → Bool) (l : List Nat) :
    (sortIndices le l).length = l.length :=
  (sortIndices_perm le l).length_eq

/-- Inserting into a sorted list keeps it sorted (for a total transitive
relation). -/
theorem insertOrd_pairwise (le : Nat → Nat → Bool)
    (htot : ∀ a b, le a b = true ∨ le b a = true)
    (htrans : ∀ a b c, le a b = true → le b c = true → le a c = true)
    (x : Nat) (l : List Nat) (hl : l.Pairwise (fun a b => le a b = true)) :
    (insertOrd le x l).Pairwise (fun a b => le a b = true) := by
  induction l with
  | nil => simp [insertOrd]
  | cons y ys ih =>
    rw [List.pairwise_cons] at hl
    obtain ⟨hy, hys⟩ := hl
    simp only [insertOrd]
    split_ifs with hxy
    · refine List.pairwise_cons.mpr ⟨?_, List.pairwise_cons.mpr ⟨hy, hys⟩⟩
      intro z hz
      rcases List.mem_cons.mp hz with rfl | hz
      · exact hxy
      · exact htrans x y z hxy (hy z hz)
    · have hyx : le y x = true := (htot x y).resolve_left hxy
      refine List.pairwise_cons.mpr ⟨?_, ih hys⟩
      intro z hz
      rcases List.mem_cons.mp ((insertOrd_perm le x ys).mem_iff.mp hz) with rfl | hz2
      · exact hyx
      · exact hy z hz2

/-- The sort sorts (for a total transitive relation). -/
theorem sortIndices_pairwise (le : Nat → Nat → Bool)
    (htot : ∀ a b, le a b = true ∨ le b a = true)
    (htrans : ∀ a b c, le a b = true → le b c = true → le a c = true)
    (l : List Nat) :
    (sortIndices le l).Pairwise (fun a b => le a b = true) := by
  induction l with
  | nil => simp [sortIndices]
  | cons x xs ih => exact insertOrd_pairwise le htot htrans x _ ih

/-- Canonicity: for a total, transitive, antisymmetric relation the sorted
arrangement depends only on the multiset of entries.  This is what makes the
per-axis re-sorts of the partition loop reproducible. -/
theorem sortIndices_eq_of_perm (le : Nat → Nat → Bool)
    (htot : ∀ a b, le a b = true ∨ le b a = true)
    (htrans : ∀ a b c, le a b = true → le b c = true → le a c = true)
    (hanti : ∀ a b, le a b = true → le b a = true → a = b)
    {l1 l2 : List Nat} (h : l1.Perm l2) :
    sortIndices le l1 = sortIndices le l2 := by
  haveI : IsAntisymm Nat (fun a b => le a b = true) := ⟨hanti⟩
  exact List.eq_of_perm_of_sorted
    ((sortIndices_perm le l1).trans (h.trans (sortIndices_perm le l2).symm))
    (sortIndices_pairwise le htot htrans l1)
    (sortIndices_pairwise le htot htrans l2)

/-- Specialization of canonicity to the axis ordering. -/
theorem sortIndices_axisLe_eq_of_perm (bboxes : List Box) (d : Nat)
    {l1 l2 : List Nat} (h : l1.Perm l2) :
    sortIndices (axisLe bboxes d) l1 = sortIndices (axisLe bboxes d) l2 :=
  sortIndices_eq_of_perm (axisLe bboxes d)
    (fun a b => axisLe_total bboxes d a b)
    (fun _ _ _ h1 h2 => axisLe_trans bboxes d h1 h2)
    (fun _ _ h1 h2 => axisLe_antisymm bboxes d h1 h2) h

end SAH

namespace SAH

/-! Properties of box accumulation. -/

/-- Merging is commutative. -/
theorem boxMerge_comm (x y : Box) : boxMerge x y = boxMerge y x := by
  apply List.ext_getElem
  · simp [boxMerge, Nat.min_comm]
  · intro n h1 h2
    simp only [boxMerge, List.getElem_zipWith]
    exact Prod.ext (min_comm _ _) (max_comm _ _)

/-- Right commutativity of max. -/
theorem maxRightComm (a b c : Rat) : max (max a b) c = max (max a c) b := by
  rw [max_assoc, max_comm b c, ← max_assoc]

/-- Merging is right-commutative. -/
theorem boxMerge_right_comm (a x y : Box) :
    boxMerge (boxMerge a x) y = boxMerge (boxMerge a y) x := by
  apply List.ext_getElem
  · simp [boxMerge, Nat.min_assoc, Nat.min_comm x.length y.length]
  · intro n h1 h2
    simp only [boxMerge, List.getElem_zipWith]
    exact Prod.ext (min_right_comm _ _ _) (maxRightComm _ _ _)

/-- AABB insertion is right-commutative: the union does not depend on the
order of insertions. -/
theorem aabbInsert_right_comm (a : AABB) (x y : Box) :
    aabbInsert (aabbInsert a x) y = aabbInsert (aabbInsert a y) x := by
  cases a with
  | none => simp [aabbInsert, boxMerge_comm]
  | some b => simp [aabbInsert, boxMerge_right_comm]

/-- The union of a set of item boxes is invariant under permutation of the
index list. -/
theorem unionIdxs_perm (bboxes : List Box) {l1 l2 : List Nat}
    (h : l1.Perm l2) : unionIdxs bboxes l1 = unionIdxs bboxes l2 :=
  h.foldl_eq'
    (fun x _ y _ z => aabbInsert_right_comm z (boxGet bboxes x) (boxGet bboxes y))
    none

/-- A pending insertion can be moved past a fold of insertions. -/
theorem foldl_aabbInsert_out (bboxes : List Box) (l : List Nat) (a : AABB) (x : Nat) :
    List.foldl (fun acc i => aabbInsert acc (boxGet bboxes i))
        (aabbInsert a (boxGet bboxes x)) l =
      aabbInsert (List.foldl (fun acc i => aabbInsert acc (boxGet bboxes i)) a l)
        (boxGet bboxes x) := by
  induction l generalizing a with
  | nil => rfl
  | cons y ys ih =>
    simp only [List.foldl_cons]
    rw [aabbInsert_right_comm, ih]

/-- Unfolding the union over a cons cell from the accumulator side. -/
theorem unionIdxs_cons (bboxes : List Box) (x : Nat) (l : List Nat) :
    unionIdxs bboxes (x :: l) = aabbInsert (unionIdxs bboxes l) (boxGet bboxes x) := by
  simp only [unionIdxs, List.foldl_cons]
  exact foldl_aabbInsert_out bboxes l none x

/-! Properties of the sub-range replacement. -/

/-- Replacing a sub-range preserves the array length. -/
theorem setSlice_length {l s : List Nat} {bgn count : Nat}
    (h : bgn + count ≤ l.length) (hs : s.length = count) :
    (setSlice l bgn count s).length = l.length := by
  simp [setSlice, hs]
  omega

/-- Replacing a sub-range leaves the positions before it unchanged. -/
theorem setSlice_take {l s : List Nat} {bgn count : Nat}
    (h : bgn ≤ l.length) :
    (setSlice l bgn count s).take bgn = l.take bgn := by
  rw [setSlice, List.append_assoc, List.take_left']
  simp [Nat.min_eq_left h]

/-- Replacing a sub-range leaves the positions after it unchanged. -/
theorem setSlice_drop {l s : List Nat} {bgn count : Nat}
    (h : bgn + count ≤ l.length) (hs : s.length = count) :
    (setSlice l bgn count s).drop (bgn + count) = l.drop (bgn + count) := by
  rw [setSlice, List.drop_left']
  simp [hs]
  omega

/-- Reading back the replaced sub-range. -/
theorem setSlice_slice {l s : List Nat} {bgn count : Nat}
    (h : bgn + count ≤ l.length) (hs : s.length = count) :
    slice (setSlice l bgn count s) bgn count = s := by
  rw [setSlice, slice, List.append_assoc, List.drop_left']
  · exact List.take_left' hs
  · simp; omega

/-- Two successive replacements of the same sub-range collapse. -/
theorem setSlice_setSlice {l s t : List Nat} {bgn count : Nat}
    (h : bgn + count ≤ l.length) (hs : s.length = count) :
    setSlice (setSlice l bgn count s) bgn count t = setSlice l bgn count t := by
  have h2 : bgn + count ≤ (setSlice l bgn count s).length := by
    rw [setSlice_length h hs]; exact h
  conv_lhs => rw [setSlice]
  rw [setSlice_take (by omega), setSlice_drop h hs, setSlice]

/-- Decomposing an array around a sub-range. -/
theorem eq_take_append_slice (l : List Nat) (bgn count : Nat) :
    l = l.take bgn ++ slice l bgn count ++ l.drop (bgn + count) := by
  rw [slice, List.append_assoc]
  nth_rewrite 1 [← List.take_append_drop bgn l]
  congr 1
  rw [← List.drop_drop]
  exact (List.take_append_drop count (l.drop bgn)).symm

end SAH

namespace SAH

/-! Properties of the left sweep (the scratch-buffer writes). -/

/-- The left sweep records one area per item walked. -/
theorem leftSweep_length (bboxes : List Box) (acc : AABB) (l : List Nat) :
    (leftSweep bboxes acc l).length = l.length := by
  induction l generalizing acc with
  | nil => rfl
  | cons i is ih => simp [leftSweep, ih]

/-- The j-th slot written by the left sweep is the half surface area of the
union of the first j+1 items (accumulated on top of the entry accumulator). -/
theorem leftSweep_getD (bboxes : List Box) (l : List Nat) (acc : AABB)
    (j : Nat) (h : j < l.length) :
    (leftSweep bboxes acc l).getD j 0 =
      half_surface_area
        (List.foldl (fun a i => aabbInsert a (boxGet bboxes i)) acc (l.take (j + 1))) := by
  induction l generalizing acc j with
  | nil => exact absurd h (Nat.not_lt_zero j)
  | cons i is ih =>
    cases j with
    | zero => simp [leftSweep, List.take]
    | succ j =>
      simp only [leftSweep, List.getD_cons_succ, List.take, List.foldl_cons]
      exact ih _ _ (by simpa using h)

/-! The pivot positions scanned by the right sweep. -/

/-- Membership in the descending pivot list. -/
theorem pivotsDesc_mem {n ii : Nat} : ii ∈ pivotsDesc n ↔ 1 ≤ ii ∧ ii ≤ n := by
  induction n with
  | zero => simp [pivotsDesc]; omega
  | succ n ih =>
    simp only [pivotsDesc, List.mem_cons, ih]
    omega

/-- The descending pivot list is the reversal of 1 .. n. -/
theorem pivotsDesc_eq (n : Nat) :
    pivotsDesc n = ((List.range n).map (fun j => j + 1)).reverse := by
  induction n with
  | zero => rfl
  | succ n ih =>
    rw [pivotsDesc, ih, List.range_succ, List.map_append, List.reverse_append]
    rfl

/-! The running best candidate as a running minimum. -/

/-- Cost component of the best candidate. -/
def bcost (best : Option (Rat × Nat × Nat)) : Option Rat := best.map (fun t => t.1)

/-- Candidate update, uncurried (the fold step of the scan). -/
def updF (b : Option (Rat × Nat × Nat)) (p : Rat × Nat × Nat) :
    Option (Rat × Nat × Nat) :=
  updateBest b p.1 p.2.1 p.2.2

/-- A candidate update never discards the candidate. -/
theorem updateBest_isSome (best : Option (Rat × Nat × Nat)) (sc : Rat) (d i : Nat) :
    ∃ t, updateBest best sc d i = some t := by
  cases best with
  | none => exact ⟨_, rfl⟩
  | some t =>
    obtain ⟨bc, bd, bi⟩ := t
    simp only [updateBest]
    split_ifs
    · exact ⟨_, rfl⟩
    · exact ⟨_, rfl⟩

/-- The cost of an updated candidate is the minimum of the old cost and the
new cost. -/
theorem bcost_updateBest (best : Option (Rat × Nat × Nat)) (sc : Rat) (d i : Nat) :
    bcost (updateBest best sc d i) = oMin (bcost best) sc := by
  cases best with
  | none => rfl
  | some t =>
    obtain ⟨bc, bd, bi⟩ := t
    show bcost (if bc > sc then some (sc, d, i) else some (bc, bd, bi)) = some (min bc sc)
    split_ifs with hgt
    · show some sc = some (min bc sc)
      rw [min_eq_right (le_of_lt hgt)]
    · show some bc = some (min bc sc)
      rw [min_eq_left (not_lt.mp hgt)]

/-- The cost of a fold of candidate updates is the running minimum of the
scanned costs. -/
theorem bcost_foldl_updF (ps : List (Rat × Nat × Nat)) :
    ∀ b, bcost (List.foldl updF b ps) =
      List.foldl oMin (bcost b) (ps.map (fun p => p.1)) := by
  induction ps with
  | nil => intro b; rfl
  | cons p ps ih =>
    intro b
    simp only [List.foldl_cons, List.map_cons, ih, updF, bcost_updateBest]

/-- A fold of candidate updates over a non-empty scan list yields a
candidate. -/
theorem foldl_updF_isSome (ps : List (Rat × Nat × Nat)) :
    ∀ b, (ps ≠ [] ∨ ∃ t, b = some t) →
      ∃ t, List.foldl updF b ps = some t := by
  induction ps with
  | nil =>
    intro b h
    rcases h with h | ⟨t, rfl⟩
    · exact absurd rfl h
    · exact ⟨t, rfl⟩
  | cons p ps ih =>
    intro b _
    simp only [List.foldl_cons]
    refine ih _ (Or.inr ?_)
    exact updateBest_isSome b p.1 p.2.1 p.2.2

/-- Folding the running minimum from a definite value is folding min. -/
theorem foldl_oMin_some (l : List Rat) :
    ∀ m, List.foldl oMin (some m) l = some (List.foldl min m l) := by
  induction l with
  | nil => intro m; rfl
  | cons c cs ih => intro m; simp only [List.foldl_cons, oMin, ih]

/-- The running minimum of a list of costs is invariant under permutation. -/
theorem listMinO_perm {l1 l2 : List Rat} (h : l1.Perm l2) :
    listMinO l1 = listMinO l2 := by
  refine h.foldl_eq' (fun x _ y _ z => ?_) none
  cases z with
  | none => simp [oMin, min_comm]
  | some m => simp [oMin, min_right_comm]

end SAH

namespace SAH

/-- The cost the right sweep computes for pivot ii, reading the left area
from the scratch buffer. -/
def sweepCost (bboxes : List Box) (count : Nat) (la : List Rat)
    (sub : List Nat) (ii : Nat) : Rat :=
  la.getD (ii - 1) 0 * ((ii : Nat) : Rat) +
  half_surface_area (unionIdxs bboxes (sub.drop ii)) * ((count - ii : Nat) : Rat)

/-- The per-pivot cost on a sub-range, computed purely from union areas. -/
def pureCost (bboxes : List Box) (count : Nat) (sub : List Nat) (ii : Nat) : Rat :=
  half_surface_area (unionIdxs bboxes (sub.take ii)) * ((ii : Nat) : Rat) +
  half_surface_area (unionIdxs bboxes (sub.drop ii)) * ((count - ii : Nat) : Rat)

/-- The scan list of one axis: (cost, axis, pivot) triples in scan order,
with the costs evaluated on the axis-sorted sub-range. -/
def axisPairs (bboxes : List Box) (count : Nat) (d : Nat) (S : List Nat) :
    List (Rat × Nat × Nat) :=
  (pivotsDesc (count - 1)).map (fun ii =>
    (pureCost bboxes count (sortIndices (axisLe bboxes d) S) ii, d, ii))

/-- The right sweep is a fold of candidate updates over the descending pivot
list, with the stated costs, provided the entry accumulator is the union of
the items to the right of the counter. -/
theorem rightSweep_eq_foldl (bboxes : List Box) (sub : List Nat) (count : Nat)
    (la : List Rat) (d : Nat) :
    ∀ i, i < sub.length → ∀ best,
      rightSweep bboxes sub count la d i (unionIdxs bboxes (sub.drop (i + 1))) best =
        List.foldl (fun b ii => updateBest b (sweepCost bboxes count la sub ii) d ii)
          best (pivotsDesc i) := by
  intro i
  induction i with
  | zero => intro _ best; rfl
  | succ i ih =>
    intro h best
    have h' : i < sub.length := Nat.lt_of_succ_lt h
    have hacc :
        aabbInsert (unionIdxs bboxes (sub.drop (i + 1 + 1)))
            (boxGet bboxes (sub.getD (i + 1) 0)) =
          unionIdxs bboxes (sub.drop (i + 1)) := by
      rw [List.getD_eq_getElem _ _ h]
      conv_rhs => rw [List.drop_eq_getElem_cons h, unionIdxs_cons]
    simp only [rightSweep]
    rw [hacc]
    have hcost :
        la.getD i 0 * ((i + 1 : Nat) : Rat) +
          half_surface_area (unionIdxs bboxes (sub.drop (i + 1))) *
            ((count - (i + 1) : Nat) : Rat) =
          sweepCost bboxes count la sub (i + 1) := rfl
    rw [hcost, pivotsDesc, List.foldl_cons]
    exact ih h' _

/-- Every candidate produced by the right sweep has an axis and pivot coming
either from the entry candidate or from the scanned pivots [1, i]. -/
theorem rightSweep_pred (bboxes : List Box) (sub : List Nat) (count : Nat)
    (la : List Rat) (d : Nat) (P : Nat → Nat → Prop) :
    ∀ i acc best,
      (∀ c dd ii, best = some (c, dd, ii) → P dd ii) →
      (∀ ii, 1 ≤ ii → ii ≤ i → P d ii) →
      ∀ c dd ii,
        rightSweep bboxes sub count la d i acc best = some (c, dd, ii) → P dd ii := by
  intro i
  induction i with
  | zero => intro acc best hb _ c dd ii h; exact hb c dd ii h
  | succ i ih =>
    intro acc best hb hp
    simp only [rightSweep]
    refine ih _ _ ?_ (fun ii h1 h2 => hp ii h1 (Nat.le_succ_of_le h2))
    intro c dd ii h
    cases best with
    | none =>
      simp only [updateBest, Option.some.injEq, Prod.mk.injEq] at h
      obtain ⟨-, hdd, hii⟩ := h
      subst hdd; subst hii
      exact hp _ (Nat.succ_le_succ (Nat.zero_le i)) (Nat.le_refl _)
    | some t =>
      obtain ⟨bc, bd, bi⟩ := t
      simp only [updateBest] at h
      split_ifs at h <;> simp only [Option.some.injEq, Prod.mk.injEq] at h
      · obtain ⟨-, hdd, hii⟩ := h
        subst hdd; subst hii
        exact hp _ (Nat.succ_le_succ (Nat.zero_le i)) (Nat.le_refl _)
      · obtain ⟨-, hdd, hii⟩ := h
        subst hdd; subst hii
        exact hb bc bd bi rfl

/-- First component of one axis iteration: the sorted index array. -/
theorem axisStep_fst (bboxes : List Box) (bgn count : Nat) (d : Nat)
    (idxs : List Nat) (la : List Rat) (best : Option (Rat × Nat × Nat)) :
    (axisStep bboxes bgn count d idxs la best).1 =
      setSlice idxs bgn count
        (sortIndices (axisLe bboxes d) (slice idxs bgn count)) := rfl

/-- Length of a sub-range view. -/
theorem slice_length {l : List Nat} {bgn count : Nat}
    (h : bgn + count ≤ l.length) : (slice l bgn count).length = count := by
  simp [slice]
  omega

/-- Best-candidate component of one axis iteration: a fold of candidate
updates over the axis scan list, with the costs the claims describe. -/
theorem axisStep_best (bboxes : List Box) (bgn count : Nat) (d : Nat)
    (idxs : List Nat) (la : List Rat) (best : Option (Rat × Nat × Nat))
    (hlen : bgn + count ≤ idxs.length) (hc : 1 ≤ count) :
    (axisStep bboxes bgn count d idxs la best).2.2 =
      List.foldl updF best (axisPairs bboxes count d (slice idxs bgn count)) := by
  have hS : (slice idxs bgn count).length = count := slice_length hlen
  have hsl : (sortIndices (axisLe bboxes d) (slice idxs bgn count)).length = count := by
    rw [sortIndices_length, hS]
  have hsub : slice (sortRange bboxes d bgn count idxs) bgn count =
      sortIndices (axisLe bboxes d) (slice idxs bgn count) :=
    setSlice_slice hlen hsl
  show (rightSweep bboxes (slice (sortRange bboxes d bgn count idxs) bgn count) count
      (leftSweep bboxes none
        ((slice (sortRange bboxes d bgn count idxs) bgn count).take (count - 1)) ++
        la.drop (count - 1))
      d (count - 1) none best) = _
  rw [hsub]
  set sub := sortIndices (axisLe bboxes d) (slice idxs bgn count) with hsubdef
  set la2 := leftSweep bboxes none (sub.take (count - 1)) ++ la.drop (count - 1) with hla2
  have hnone : (none : AABB) = unionIdxs bboxes (sub.drop (count - 1 + 1)) := by
    have : count - 1 + 1 = count := Nat.succ_pred_eq_of_pos hc
    rw [this, List.drop_eq_nil_of_le (le_of_eq hsl)]
    rfl
  rw [hnone, rightSweep_eq_foldl bboxes sub count la2 d (count - 1) (by omega) best]
  rw [axisPairs, List.foldl_map]
  refine List.foldl_ext _ _ best ?_
  intro b ii hii
  obtain ⟨h1, h2⟩ := pivotsDesc_mem.mp hii
  show updateBest b (sweepCost bboxes count la2 sub ii) d ii =
    updateBest b (pureCost bboxes count sub ii) d ii
  congr 1
  unfold sweepCost pureCost
  congr 1
  have hlsl : (leftSweep bboxes none (sub.take (count - 1))).length = count - 1 := by
    rw [leftSweep_length, List.length_take, hsl]
    omega
  have hlt : ii - 1 < (leftSweep bboxes none (sub.take (count - 1))).length := by
    rw [hlsl]; omega
  have hread : la2.getD (ii - 1) 0 =
      (leftSweep bboxes none (sub.take (count - 1))).getD (ii - 1) 0 := by
    rw [hla2]
    exact List.getD_append _ _ _ _ hlt
  have htl : ii - 1 < (sub.take (count - 1)).length := by
    rw [List.length_take, hsl]; omega
  rw [hread, leftSweep_getD bboxes _ none (ii - 1) htl]
  have htt : (sub.take (count - 1)).take (ii - 1 + 1) = sub.take ii := by
    rw [List.take_take]
    congr 1
    omega
  rw [htt]
  rfl

end SAH

namespace SAH

/-- Characterization of the axis loop: the final index array is the entry
array with the sub-range replaced by its sort along the last scanned axis,
and the final best candidate is the fold of the per-axis scan lists (which
depend only on the entry sub-range, not on the scratch buffer). -/
theorem axisLoop_spec (bboxes : List Box) (bgn count : Nat) (hc : 1 ≤ count) :
    ∀ (ds : List Nat) (idxs : List Nat) (la : List Rat)
      (best : Option (Rat × Nat × Nat)),
      bgn + count ≤ idxs.length →
      (axisLoop bboxes bgn count ds (idxs, la, best)).1.length = idxs.length ∧
      (axisLoop bboxes bgn count ds (idxs, la, best)).2.2 =
        List.foldl updF best
          (ds.flatMap (fun d => axisPairs bboxes count d (slice idxs bgn count))) ∧
      (∀ h : ds ≠ [],
        (axisLoop bboxes bgn count ds (idxs, la, best)).1 =
          setSlice idxs bgn count
            (sortIndices (axisLe bboxes (ds.getLast h)) (slice idxs bgn count))) ∧
      (ds = [] → axisLoop bboxes bgn count ds (idxs, la, best) = (idxs, la, best)) := by
  intro ds
  induction ds with
  | nil =>
    intro idxs la best _
    refine ⟨rfl, rfl, ?_, fun _ => rfl⟩
    intro h; exact absurd rfl h
  | cons d ds ih =>
    intro idxs la best hlen
    have hS : (slice idxs bgn count).length = count := slice_length hlen
    have hsl : (sortIndices (axisLe bboxes d) (slice idxs bgn count)).length = count := by
      rw [sortIndices_length, hS]
    have hfst := axisStep_fst bboxes bgn count d idxs la best
    have hbest := axisStep_best bboxes bgn count d idxs la best hlen hc
    rcases hstep : axisStep bboxes bgn count d idxs la best with ⟨idxs2, la2, best2⟩
    rw [hstep] at hfst hbest
    simp only at hfst hbest
    have hlen2 : idxs2.length = idxs.length := by
      rw [hfst]; exact setSlice_length hlen hsl
    have hlen2' : bgn + count ≤ idxs2.length := by rw [hlen2]; exact hlen
    have hS2 : slice idxs2 bgn count = sortIndices (axisLe bboxes d) (slice idxs bgn count) := by
      rw [hfst]; exact setSlice_slice hlen hsl
    have hS2p : (slice idxs2 bgn count).Perm (slice idxs bgn count) := by
      rw [hS2]; exact sortIndices_perm _ _
    have hfun : ∀ d2 : Nat, axisPairs bboxes count d2 (slice idxs2 bgn count) =
        axisPairs bboxes count d2 (slice idxs bgn count) := by
      intro d2
      unfold axisPairs
      rw [sortIndices_axisLe_eq_of_perm bboxes d2 hS2p]
    have hloop : axisLoop bboxes bgn count (d :: ds) (idxs, la, best) =
        axisLoop bboxes bgn count ds (idxs2, la2, best2) := by
      simp only [axisLoop, hstep]
    obtain ⟨ihlen, ihbest, ihlast, ihnil⟩ := ih idxs2 la2 best2 hlen2'
    refine ⟨?_, ?_, ?_, ?_⟩
    · rw [hloop, ihlen, hlen2]
    · rw [hloop, ihbest, hbest, List.flatMap_cons, List.foldl_append]
      congr 1
      exact congrArg ds.flatMap (funext hfun)
    · intro hne
      rw [hloop]
      rcases eq_or_ne ds ([] : List Nat) with hds | hds
      · subst hds
        rw [ihnil rfl]
        simp only
        rw [hfst]
        rfl
      · rw [ihlast hds, hS2,
          sortIndices_axisLe_eq_of_perm bboxes (ds.getLast hds) (sortIndices_perm _ _),
          hfst, setSlice_setSlice hlen hsl]
        rw [List.getLast_cons hds]
    · intro hcontra; exact absurd hcontra (by simp)

end SAH

namespace SAH

/-- Every axis/pivot recorded by the axis loop comes from the entry candidate
or from a scanned axis with a pivot in [1, count-1]. -/
theorem axisLoop_pred (bboxes : List Box) (bgn count : Nat) (P : Nat → Nat → Prop) :
    ∀ (ds : List Nat) (idxs : List Nat) (la : List Rat)
      (best : Option (Rat × Nat × Nat)),
      (∀ c dd ii, best = some (c, dd, ii) → P dd ii) →
      (∀ d, d ∈ ds → ∀ ii, 1 ≤ ii → ii ≤ count - 1 → P d ii) →
      ∀ c dd ii,
        (axisLoop bboxes bgn count ds (idxs, la, best)).2.2 = some (c, dd, ii) →
        P dd ii := by
  intro ds
  induction ds with
  | nil => intro idxs la best hb _ c dd ii h; exact hb c dd ii h
  | cons d ds ih =>
    intro idxs la best hb hds
    rcases hstep : axisStep bboxes bgn count d idxs la best with ⟨idxs2, la2, best2⟩
    have hb2 : ∀ c dd ii, best2 = some (c, dd, ii) → P dd ii := by
      intro c dd ii h
      have h2 : (axisStep bboxes bgn count d idxs la best).2.2 = some (c, dd, ii) := by
        rw [hstep]; exact h
      revert h2
      show rightSweep bboxes _ count _ d (count - 1) none best = some (c, dd, ii) → P dd ii
      exact rightSweep_pred bboxes _ count _ d P (count - 1) none best hb
        (fun ii h1 h2 => hds d (List.mem_cons_self d ds) ii h1 h2) c dd ii
    simp only [axisLoop, hstep]
    exact ih idxs2 la2 best2 hb2 (fun d2 hd2 => hds d2 (List.mem_cons_of_mem d hd2))

/-- The descending pivot scan is a permutation of the ascending one. -/
theorem pivotsDesc_map_perm {α : Type} (n : Nat) (f : Nat → α) :
    ((pivotsDesc n).map f).Perm ((List.range n).map (fun j => f (j + 1))) := by
  rw [pivotsDesc_eq, List.map_reverse, List.map_map]
  exact (List.reverse_perm _).trans (List.Perm.refl _)

/-- Pointwise permutations lift to flat maps. -/
theorem flatMap_perm {α β : Type} (l : List α) (f g : α → List β)
    (h : ∀ a, (f a).Perm (g a)) : (l.flatMap f).Perm (l.flatMap g) := by
  induction l with
  | nil => exact List.Perm.refl _
  | cons x xs ih => rw [List.flatMap_cons, List.flatMap_cons]; exact (h x).append ih

/-- The costs of one axis scan list are a permutation of the
specification-side cost list of that axis. -/
theorem axisPairs_costs_perm (bboxes : List Box) (count : Nat) (d : Nat)
    (S : List Nat) :
    ((axisPairs bboxes count d S).map (fun p => p.1)).Perm
      (specAxisCosts bboxes count (sortIndices (axisLe bboxes d) S)) := by
  have h1 : (axisPairs bboxes count d S).map (fun p => p.1) =
      (pivotsDesc (count - 1)).map
        (fun ii => pureCost bboxes count (sortIndices (axisLe bboxes d) S) ii) := by
    rw [axisPairs, List.map_map]
    rfl
  rw [h1]
  exact pivotsDesc_map_perm (count - 1) _

/-- The costs of the full multi-axis scan are a permutation of the
specification-side cost list. -/
theorem allPairs_costs_perm (bboxes : List Box) (D bgn ed : Nat) (idxs : List Nat) :
    (((List.range D).flatMap
        (fun d => axisPairs bboxes (ed - bgn) d (slice idxs bgn (ed - bgn)))).map
      (fun p => p.1)).Perm
      (specSplitCosts bboxes D bgn ed idxs) := by
  rw [List.map_flatMap]
  exact flatMap_perm _ _ _ (fun d => axisPairs_costs_perm bboxes (ed - bgn) d _)

/-- The minimum of a non-empty cost list is definite. -/
theorem listMinO_isSome {l : List Rat} (h : l ≠ []) :
    listMinO l = some ((listMinO l).getD 0) := by
  cases l with
  | nil => exact absurd rfl h
  | cons c cs =>
    have h2 : listMinO (c :: cs) = some (List.foldl min c cs) := by
      show List.foldl oMin (oMin none c) cs = _
      rw [show oMin none c = some c from rfl, foldl_oMin_some]
    rw [h2]
    rfl

/-- Unfolding of partition in the non-leaf case. -/
theorem partition_eq_of_not_leaf (cfg : SAHConfig) (D : Nat) (bboxes : List Box)
    (bgn ed : Nat) (bbox : AABB) (st : PartitionerState)
    (hmax : ¬ (ed - bgn ≤ cfg.max_leaf_size)) :
    partition cfg D bboxes bgn ed bbox st =
      match axisLoop bboxes bgn (ed - bgn) (List.range D)
          (st.indices, ensure_minimum_size st.left_areas (ed - bgn - 1), none) with
      | (idxs, la, none) => (ed, ⟨idxs, la⟩)
      | (idxs, la, some (bc, bd, bi)) =>
        if ((ed - bgn : Nat) : Rat) * cfg.triangle_intersection_cost ≤
            cfg.interior_node_traversal_cost +
              bc / half_surface_area bbox * cfg.triangle_intersection_cost then
          (ed, ⟨idxs, la⟩)
        else
          (bgn + bi,
            ⟨if bd < D - 1 then sortRange bboxes bd bgn (ed - bgn) idxs else idxs,
             la⟩) := by
  simp only [partition, if_neg hmax]

end SAH

namespace SAH

/-- Unfolding of partition when the axis loop found no candidate. -/
theorem partition_eq_none (cfg : SAHConfig) (D : Nat) (bboxes : List Box)
    (bgn ed : Nat) (bbox : AABB) (st : PartitionerState)
    (hmax : ¬ (ed - bgn ≤ cfg.max_leaf_size))
    (idxs : List Nat) (la : List Rat)
    (hloop : axisLoop bboxes bgn (ed - bgn) (List.range D)
      (st.indices, ensure_minimum_size st.left_areas (ed - bgn - 1), none) =
      (idxs, la, none)) :
    partition cfg D bboxes bgn ed bbox st = (ed, ⟨idxs, la⟩) := by
  simp only [partition, if_neg hmax, hloop]

/-- Unfolding of partition when the axis loop found a best candidate. -/
theorem partition_eq_some (cfg : SAHConfig) (D : Nat) (bboxes : List Box)
    (bgn ed : Nat) (bbox : AABB) (st : PartitionerState)
    (hmax : ¬ (ed - bgn ≤ cfg.max_leaf_size))
    (idxs : List Nat) (la : List Rat) (bc : Rat) (bd bi : Nat)
    (hloop : axisLoop bboxes bgn (ed - bgn) (List.range D)
      (st.indices, ensure_minimum_size st.left_areas (ed - bgn - 1), none) =
      (idxs, la, some (bc, bd, bi))) :
    partition cfg D bboxes bgn ed bbox st =
      if ((ed - bgn : Nat) : Rat) * cfg.triangle_intersection_cost ≤
          cfg.interior_node_traversal_cost +
            bc / half_surface_area bbox * cfg.triangle_intersection_cost then
        (ed, ⟨idxs, la⟩)
      else
        (bgn + bi,
          ⟨if bd < D - 1 then sortRange bboxes bd bgn (ed - bgn) idxs else idxs, la⟩) := by
  simp only [partition, if_neg hmax, hloop]

/-- Frame facts of an in-place sub-range sort. -/
theorem sortRange_frame (bboxes : List Box) (d bgn count : Nat) (l : List Nat)
    (hlen : bgn + count ≤ l.length) :
    (sortRange bboxes d bgn count l).take bgn = l.take bgn ∧
    (sortRange bboxes d bgn count l).drop (bgn + count) = l.drop (bgn + count) ∧
    (slice (sortRange bboxes d bgn count l) bgn count).Perm (slice l bgn count) ∧
    (sortRange bboxes d bgn count l).length = l.length := by
  have hsl : (sortIndices (axisLe bboxes d) (slice l bgn count)).length = count := by
    rw [sortIndices_length]; exact slice_length hlen
  refine ⟨setSlice_take (by omega), setSlice_drop hlen hsl, ?_, setSlice_length hlen hsl⟩
  rw [sortRange, setSlice_slice hlen hsl]
  exact sortIndices_perm _ _

/-- Frame facts of the axis loop. -/
theorem axisLoop_frame (bboxes : List Box) (bgn count : Nat) (hc : 1 ≤ count)
    (ds : List Nat) (idxs : List Nat) (la : List Rat)
    (best : Option (Rat × Nat × Nat)) (hlen : bgn + count ≤ idxs.length) :
    (axisLoop bboxes bgn count ds (idxs, la, best)).1.take bgn = idxs.take bgn ∧
    (axisLoop bboxes bgn count ds (idxs, la, best)).1.drop (bgn + count) =
      idxs.drop (bgn + count) ∧
    (slice (axisLoop bboxes bgn count ds (idxs, la, best)).1 bgn count).Perm
      (slice idxs bgn count) ∧
    (axisLoop bboxes bgn count ds (idxs, la, best)).1.length = idxs.length := by
  obtain ⟨hl, -, hlast, hnil⟩ := axisLoop_spec bboxes bgn count hc ds idxs la best hlen
  rcases eq_or_ne ds ([] : List Nat) with hds | hds
  · rw [hnil hds]
    exact ⟨rfl, rfl, List.Perm.refl _, rfl⟩
  · have hsl : (sortIndices (axisLe bboxes (ds.getLast hds))
        (slice idxs bgn count)).length = count := by
      rw [sortIndices_length]; exact slice_length hlen
    rw [hlast hds]
    refine ⟨setSlice_take (by omega), setSlice_drop hlen hsl, ?_, setSlice_length hlen hsl⟩
    rw [setSlice_slice hlen hsl]
    exact sortIndices_perm _ _

/-- An array that agrees outside a sub-range and permutes inside it is a
permutation of the original. -/
theorem perm_of_frame {l1 l2 : List Nat} {bgn count : Nat}
    (ht : l1.take bgn = l2.take bgn)
    (hd : l1.drop (bgn + count) = l2.drop (bgn + count))
    (hs : (slice l1 bgn count).Perm (slice l2 bgn count)) :
    l1.Perm l2 := by
  conv_lhs => rw [eq_take_append_slice l1 bgn count]
  conv_rhs => rw [eq_take_append_slice l2 bgn count]
  rw [ht, hd]
  exact (List.Perm.append_left _ hs).append (List.Perm.refl _)

/-- Splitting a sub-range view at an interior position. -/
theorem slice_decomp (l : List Nat) {bgn p ed : Nat} (h1 : bgn ≤ p) (h2 : p ≤ ed) :
    slice l bgn (ed - bgn) = slice l bgn (p - bgn) ++ (l.drop p).take (ed - p) := by
  unfold slice
  rw [← List.take_append_drop (p - bgn) ((l.drop bgn).take (ed - bgn))]
  congr 1
  · rw [List.take_take]
    congr 1
    omega
  · rw [List.drop_take, List.drop_drop]
    congr 1
    · omega
    · congr 1
      omega

/-- The last scanned axis is D - 1. -/
theorem range_getLast {D : Nat} (h : List.range D ≠ []) :
    (List.range D).getLast h = D - 1 := by
  rw [List.getLast_eq_getElem]
  simp

/-- In the non-degenerate case the axis loop yields a candidate whose cost is
the specification-side minimum split cost. -/
theorem axisLoop_best_eq_min (bboxes : List Box) (D bgn ed : Nat)
    (idxs : List Nat) (la : List Rat)
    (hlen : bgn + (ed - bgn) ≤ idxs.length) (hc2 : 2 ≤ ed - bgn) (hD : 1 ≤ D) :
    ∃ bd bi,
      (axisLoop bboxes bgn (ed - bgn) (List.range D) (idxs, la, none)).2.2 =
        some (specBestSplitCost bboxes D bgn ed idxs, bd, bi) := by
  obtain ⟨-, hbest, -, -⟩ :=
    axisLoop_spec bboxes bgn (ed - bgn) (by omega) (List.range D) idxs la none hlen
  have hmem : (pureCost bboxes (ed - bgn)
        (sortIndices (axisLe bboxes 0) (slice idxs bgn (ed - bgn))) (ed - bgn - 1),
        0, ed - bgn - 1) ∈
      (List.range D).flatMap
        (fun d => axisPairs bboxes (ed - bgn) d (slice idxs bgn (ed - bgn))) := by
    rw [List.mem_flatMap]
    refine ⟨0, List.mem_range.mpr (by omega), ?_⟩
    rw [axisPairs]
    exact List.mem_map.mpr ⟨ed - bgn - 1, pivotsDesc_mem.mpr (by omega), rfl⟩
  have hne : (List.range D).flatMap
      (fun d => axisPairs bboxes (ed - bgn) d (slice idxs bgn (ed - bgn))) ≠ [] :=
    List.ne_nil_of_mem hmem
  obtain ⟨⟨bc, bd, bi⟩, hsome⟩ := foldl_updF_isSome _ none (Or.inl hne)
  have hperm := allPairs_costs_perm bboxes D bgn ed idxs
  have hne2 : specSplitCosts bboxes D bgn ed idxs ≠ [] := by
    intro hnil
    rw [hnil] at hperm
    exact hne (List.map_eq_nil_iff.mp hperm.eq_nil)
  have hmin : bcost (List.foldl updF none ((List.range D).flatMap
      (fun d => axisPairs bboxes (ed - bgn) d (slice idxs bgn (ed - bgn))))) =
      some (specBestSplitCost bboxes D bgn ed idxs) := by
    rw [bcost_foldl_updF]
    show List.foldl oMin none _ = _
    rw [show (List.foldl oMin none (((List.range D).flatMap
        (fun d => axisPairs bboxes (ed - bgn) d (slice idxs bgn (ed - bgn)))).map
          (fun p => p.1))) = listMinO (((List.range D).flatMap
        (fun d => axisPairs bboxes (ed - bgn) d (slice idxs bgn (ed - bgn)))).map
          (fun p => p.1)) from rfl]
    rw [listMinO_perm hperm, listMinO_isSome hne2]
    rfl
  rw [hsome] at hmin
  have hbc : bc = specBestSplitCost bboxes D bgn ed idxs := by
    simpa [bcost] using hmin
  exact ⟨bd, bi, by rw [hbest, hsome, hbc]⟩

end SAH

namespace SAH

/-- Master frame facts of a partition call: positions outside [bgn, ed) are
unchanged, the sub-range is permuted, the array length is preserved, and the
returned position lies in [bgn, ed]. -/
theorem partition_master (cfg : SAHConfig) (D : Nat) (bboxes : List Box)
    (bgn ed : Nat) (bbox : AABB) (st : PartitionerState)
    (hlen : ed ≤ st.indices.length) (hbe : bgn ≤ ed) :
    (partition cfg D bboxes bgn ed bbox st).2.indices.take bgn =
      st.indices.take bgn ∧
    (partition cfg D bboxes bgn ed bbox st).2.indices.drop ed =
      st.indices.drop ed ∧
    (slice (partition cfg D bboxes bgn ed bbox st).2.indices bgn (ed - bgn)).Perm
      (slice st.indices bgn (ed - bgn)) ∧
    (partition cfg D bboxes bgn ed bbox st).2.indices.length =
      st.indices.length ∧
    bgn ≤ (partition cfg D bboxes bgn ed bbox st).1 ∧
    (partition cfg D bboxes bgn ed bbox st).1 ≤ ed := by
  by_cases hmax : ed - bgn ≤ cfg.max_leaf_size
  · rw [show partition cfg D bboxes bgn ed bbox st = (ed, st) from by
      simp only [partition, if_pos hmax]]
    exact ⟨rfl, rfl, List.Perm.refl _, rfl, hbe, Nat.le_refl ed⟩
  · have hc : 1 ≤ ed - bgn := by omega
    have hlen2 : bgn + (ed - bgn) ≤ st.indices.length := by omega
    have hbc : bgn + (ed - bgn) = ed := by omega
    rcases hloop : axisLoop bboxes bgn (ed - bgn) (List.range D)
        (st.indices, ensure_minimum_size st.left_areas (ed - bgn - 1), none) with
      ⟨idxs, la, best⟩
    obtain ⟨hf1', hf2', hf3', hf4'⟩ := axisLoop_frame bboxes bgn (ed - bgn) hc
      (List.range D) st.indices (ensure_minimum_size st.left_areas (ed - bgn - 1))
      none hlen2
    rw [hloop] at hf1' hf2' hf3' hf4'
    have hf1 : idxs.take bgn = st.indices.take bgn := hf1'
    have hf2 : idxs.drop ed = st.indices.drop ed := by rw [← hbc]; exact hf2'
    have hf3 : (slice idxs bgn (ed - bgn)).Perm (slice st.indices bgn (ed - bgn)) := hf3'
    have hf4 : idxs.length = st.indices.length := hf4'
    cases best with
    | none =>
      rw [partition_eq_none cfg D bboxes bgn ed bbox st hmax idxs la hloop]
      exact ⟨hf1, hf2, hf3, hf4, hbe, Nat.le_refl ed⟩
    | some t =>
      obtain ⟨bc, bd, bi⟩ := t
      have hbnd : 1 ≤ bi ∧ bi ≤ ed - bgn - 1 :=
        axisLoop_pred bboxes bgn (ed - bgn)
          (fun dd ii => 1 ≤ ii ∧ ii ≤ ed - bgn - 1) (List.range D) st.indices
          (ensure_minimum_size st.left_areas (ed - bgn - 1)) none
          (fun c dd ii h => by simp at h)
          (fun d _ ii h1 h2 => ⟨h1, h2⟩) bc bd bi (by rw [hloop])
      rw [partition_eq_some cfg D bboxes bgn ed bbox st hmax idxs la bc bd bi hloop]
      split_ifs with hcond hbd
      · exact ⟨hf1, hf2, hf3, hf4, hbe, Nat.le_refl ed⟩
      · have hlenidxs : bgn + (ed - bgn) ≤ idxs.length := by rw [hf4]; exact hlen2
        obtain ⟨hs1, hs2, hs3, hs4⟩ :=
          sortRange_frame bboxes bd bgn (ed - bgn) idxs hlenidxs
        refine ⟨hs1.trans hf1, ?_, hs3.trans hf3, hs4.trans hf4, by omega, by omega⟩
        have hdd := hs2.trans hf2'
        rw [hbc] at hdd
        exact hdd
      · exact ⟨hf1, hf2, hf3, hf4, by omega, by omega⟩

end SAH

namespace SAH

/-- C1: for every call to partition with a valid range (ed - bgn > 1), the
returned value p satisfies bgn < p and p <= ed. -/
theorem C1_partition_bounds (cfg : SAHConfig) (D : Nat) (bboxes : List Box)
    (bgn ed : Nat) (bbox : AABB) (st : PartitionerState)
    (hcount : 1 < ed - bgn) :
    bgn < (partition cfg D bboxes bgn ed bbox st).1 ∧
      (partition cfg D bboxes bgn ed bbox st).1 ≤ ed := by
  by_cases hmax : ed - bgn ≤ cfg.max_leaf_size
  · rw [show partition cfg D bboxes bgn ed bbox st = (ed, st) from by
      simp only [partition, if_pos hmax]]
    show bgn < ed ∧ ed ≤ ed
    omega
  · rcases hloop : axisLoop bboxes bgn (ed - bgn) (List.range D)
        (st.indices, ensure_minimum_size st.left_areas (ed - bgn - 1), none) with
      ⟨idxs, la, best⟩
    cases best with
    | none =>
      rw [partition_eq_none cfg D bboxes bgn ed bbox st hmax idxs la hloop]
      show bgn < ed ∧ ed ≤ ed
      omega
    | some t =>
      obtain ⟨bc, bd, bi⟩ := t
      have hbnd : 1 ≤ bi ∧ bi ≤ ed - bgn - 1 :=
        axisLoop_pred bboxes bgn (ed - bgn)
          (fun dd ii => 1 ≤ ii ∧ ii ≤ ed - bgn - 1) (List.range D) st.indices
          (ensure_minimum_size st.left_areas (ed - bgn - 1)) none
          (fun c dd ii h => by simp at h)
          (fun d _ ii h1 h2 => ⟨h1, h2⟩) bc bd bi (by rw [hloop])
      rw [partition_eq_some cfg D bboxes bgn ed bbox st hmax idxs la bc bd bi hloop]
      split_ifs with hcond hbd
      · show bgn < ed ∧ ed ≤ ed
        omega
      · show bgn < bgn + bi ∧ bgn + bi ≤ ed
        omega
      · show bgn < bgn + bi ∧ bgn + bi ≤ ed
        omega

/-- Witness for C1 at a concrete input. -/
theorem C1_partition_bounds_witness :
    1 < (2 : Nat) - 0 ∧
      (0 < (partition ⟨1, 1, 1⟩ 2 [[(0, 1), (0, 1)], [(2, 3), (0, 1)]] 0 2
          (some [(0, 3), (0, 1)]) ⟨[1, 0], []⟩).1 ∧
        (partition ⟨1, 1, 1⟩ 2 [[(0, 1), (0, 1)], [(2, 3), (0, 1)]] 0 2
          (some [(0, 3), (0, 1)]) ⟨[1, 0], []⟩).1 ≤ 2) :=
  ⟨by decide, C1_partition_bounds ⟨1, 1, 1⟩ 2 [[(0, 1), (0, 1)], [(2, 3), (0, 1)]]
    0 2 (some [(0, 3), (0, 1)]) ⟨[1, 0], []⟩ (by decide)⟩

/-- C5: for every range with ed - bgn at or below the configured maximum
leaf size, partition returns ed immediately and unconditionally, with the
state untouched (no axis is evaluated). -/
theorem C5_partition_small_count_is_leaf (cfg : SAHConfig) (D : Nat)
    (bboxes : List Box) (bgn ed : Nat) (bbox : AABB) (st : PartitionerState)
    (h : ed - bgn ≤ cfg.max_leaf_size) :
    partition cfg D bboxes bgn ed bbox st = (ed, st) := by
  simp only [partition, if_pos h]

/-- Witness for C5 at a concrete input. -/
theorem C5_partition_small_count_is_leaf_witness :
    (2 : Nat) - 0 ≤ 2 ∧
      partition ⟨2, 1, 1⟩ 3 [[(0, 1), (0, 1), (0, 1)], [(5, 6), (0, 1), (0, 1)]]
          0 2 none ⟨[0, 1], []⟩ = (2, ⟨[0, 1], []⟩) :=
  ⟨by decide, C5_partition_small_count_is_leaf ⟨2, 1, 1⟩ 3
    [[(0, 1), (0, 1), (0, 1)], [(5, 6), (0, 1), (0, 1)]] 0 2 none ⟨[0, 1], []⟩
    (by decide)⟩

/-- C6: compute_bbox mutates nothing (it is a pure function of its inputs in
this embedding, as in the source where it is declared const) and its result
is invariant under any permutation of the same index sub-range. -/
theorem C6_compute_bbox_perm_invariant (bboxes : List Box)
    (idxs1 idxs2 : List Nat) (bgn ed : Nat)
    (h : (slice idxs1 bgn (ed - bgn)).Perm (slice idxs2 bgn (ed - bgn))) :
    compute_bbox bboxes idxs1 bgn ed = compute_bbox bboxes idxs2 bgn ed :=
  unionIdxs_perm bboxes h

/-- Witness for C6 at a concrete input: two different orderings of the same
index set give the same box. -/
theorem C6_compute_bbox_perm_invariant_witness :
    (slice [2, 0, 1] 0 (3 - 0)).Perm (slice [0, 1, 2] 0 (3 - 0)) ∧
      compute_bbox [[(0, 1)], [(4, 5)], [(2, 3)]] [2, 0, 1] 0 3 =
        compute_bbox [[(0, 1)], [(4, 5)], [(2, 3)]] [0, 1, 2] 0 3 :=
  ⟨by decide, C6_compute_bbox_perm_invariant [[(0, 1)], [(4, 5)], [(2, 3)]]
    [2, 0, 1] [0, 1, 2] 0 3 (by decide)⟩

/-- C4: the only externally visible state a partition call mutates is the
index permutation within [bgn, ed): entries outside the range are unchanged.
The caller's box array is passed by const reference and appears only as an
immutable input of this embedding. -/
theorem C4_partition_frame (cfg : SAHConfig) (D : Nat) (bboxes : List Box)
    (bgn ed : Nat) (bbox : AABB) (st : PartitionerState)
    (hlen : ed ≤ st.indices.length) (hbe : bgn ≤ ed) :
    (partition cfg D bboxes bgn ed bbox st).2.indices.take bgn =
      st.indices.take bgn ∧
    (partition cfg D bboxes bgn ed bbox st).2.indices.drop ed =
      st.indices.drop ed := by
  obtain ⟨h1, h2, -, -, -, -⟩ :=
    partition_master cfg D bboxes bgn ed bbox st hlen hbe
  exact ⟨h1, h2⟩

/-- Witness for C4 at a concrete input. -/
theorem C4_partition_frame_witness :
    (2 : Nat) ≤ 4 ∧ (1 : Nat) ≤ 2 ∧
      ((partition ⟨1, 1, 1⟩ 1 [[(0, 1)], [(2, 3)], [(4, 5)], [(6, 7)]] 1 2
          (some [(0, 7)]) ⟨[3, 2, 1, 0], []⟩).2.indices.take 1 =
        ([3, 2, 1, 0] : List Nat).take 1 ∧
      (partition ⟨1, 1, 1⟩ 1 [[(0, 1)], [(2, 3)], [(4, 5)], [(6, 7)]] 1 2
          (some [(0, 7)]) ⟨[3, 2, 1, 0], []⟩).2.indices.drop 2 =
        ([3, 2, 1, 0] : List Nat).drop 2) :=
  ⟨by decide, by decide,
    C4_partition_frame ⟨1, 1, 1⟩ 1 [[(0, 1)], [(2, 3)], [(4, 5)], [(6, 7)]] 1 2
      (some [(0, 7)]) ⟨[3, 2, 1, 0], []⟩ (by decide) (by decide)⟩

/-- C3: the index array behaves as a permutation at all times: initialize
establishes the identity permutation, a partition call permutes only the
multiset of indices in [bgn, ed) (so [bgn, p) and [p, ed) form a disjoint,
exhaustive split of the indices previously in [bgn, ed)), and being a
permutation of [0, N) is preserved. -/
theorem C3_partition_permutation (cfg : SAHConfig) (D N : Nat)
    (bboxes : List Box) (bgn ed : Nat) (bbox : AABB) (st : PartitionerState)
    (hlen : ed ≤ st.indices.length) (hbe : bgn ≤ ed)
    (hN : st.indices.Perm (List.range N)) :
    ((initIndices N).length = N ∧
      ∀ i, i < N → (initIndices N).getD i 0 = i) ∧
    (slice (partition cfg D bboxes bgn ed bbox st).2.indices bgn
        (ed - bgn)).Perm (slice st.indices bgn (ed - bgn)) ∧
    slice (partition cfg D bboxes bgn ed bbox st).2.indices bgn (ed - bgn) =
      slice (partition cfg D bboxes bgn ed bbox st).2.indices bgn
          ((partition cfg D bboxes bgn ed bbox st).1 - bgn) ++
        ((partition cfg D bboxes bgn ed bbox st).2.indices.drop
            (partition cfg D bboxes bgn ed bbox st).1).take
          (ed - (partition cfg D bboxes bgn ed bbox st).1) ∧
    (partition cfg D bboxes bgn ed bbox st).2.indices.Perm (List.range N) := by
  obtain ⟨h1, h2, h3, h4, h5, h6⟩ :=
    partition_master cfg D bboxes bgn ed bbox st hlen hbe
  refine ⟨⟨List.length_range N, ?_⟩, h3, ?_, ?_⟩
  · intro i hi
    rw [initIndices, List.getD_eq_getElem _ _ (by simpa using hi)]
    exact List.getElem_range _ (by simpa using hi)
  · exact slice_decomp _ h5 h6
  · have hbc : bgn + (ed - bgn) = ed := by omega
    refine (perm_of_frame h1 ?_ h3).trans hN
    rw [hbc]
    exact h2

/-- Witness for C3 at a concrete input. -/
theorem C3_partition_permutation_witness :
    (2 : Nat) ≤ 2 ∧ (0 : Nat) ≤ 2 ∧ ([1, 0] : List Nat).Perm (List.range 2) ∧
      (((initIndices 2).length = 2 ∧
        ∀ i, i < 2 → (initIndices 2).getD i 0 = i) ∧
      (slice (partition ⟨1, 1, 1⟩ 2 [[(0, 1), (0, 1)], [(2, 3), (0, 1)]] 0 2
          (some [(0, 3), (0, 1)]) ⟨[1, 0], []⟩).2.indices 0 (2 - 0)).Perm
        (slice [1, 0] 0 (2 - 0)) ∧
      slice (partition ⟨1, 1, 1⟩ 2 [[(0, 1), (0, 1)], [(2, 3), (0, 1)]] 0 2
          (some [(0, 3), (0, 1)]) ⟨[1, 0], []⟩).2.indices 0 (2 - 0) =
        slice (partition ⟨1, 1, 1⟩ 2 [[(0, 1), (0, 1)], [(2, 3), (0, 1)]] 0 2
            (some [(0, 3), (0, 1)]) ⟨[1, 0], []⟩).2.indices 0
            ((partition ⟨1, 1, 1⟩ 2 [[(0, 1), (0, 1)], [(2, 3), (0, 1)]] 0 2
              (some [(0, 3), (0, 1)]) ⟨[1, 0], []⟩).1 - 0) ++
          ((partition ⟨1, 1, 1⟩ 2 [[(0, 1), (0, 1)], [(2, 3), (0, 1)]] 0 2
              (some [(0, 3), (0, 1)]) ⟨[1, 0], []⟩).2.indices.drop
            (partition ⟨1, 1, 1⟩ 2 [[(0, 1), (0, 1)], [(2, 3), (0, 1)]] 0 2
              (some [(0, 3), (0, 1)]) ⟨[1, 0], []⟩).1).take
            (2 - (partition ⟨1, 1, 1⟩ 2 [[(0, 1), (0, 1)], [(2, 3), (0, 1)]] 0 2
              (some [(0, 3), (0, 1)]) ⟨[1, 0], []⟩).1) ∧
      (partition ⟨1, 1, 1⟩ 2 [[(0, 1), (0, 1)], [(2, 3), (0, 1)]] 0 2
          (some [(0, 3), (0, 1)]) ⟨[1, 0], []⟩).2.indices.Perm (List.range 2)) :=
  ⟨by decide, by decide, by decide,
    C3_partition_permutation ⟨1, 1, 1⟩ 2 2 [[(0, 1), (0, 1)], [(2, 3), (0, 1)]]
      0 2 (some [(0, 3), (0, 1)]) ⟨[1, 0], []⟩ (by decide) (by decide) (by decide)⟩

end SAH

namespace SAH

/-- C8: partition is deterministic: two partitioner instances with identical
prior index-array contents (scratch buffers may differ arbitrarily), given
identical box arrays, range boundaries, bounding box and configuration,
return the same split position and the same resulting index permutation. -/
theorem C8_partition_deterministic (cfg : SAHConfig) (D : Nat)
    (bboxes : List Box) (bgn ed : Nat) (bbox : AABB)
    (st1 st2 : PartitionerState)
    (hidx : st1.indices = st2.indices) (hlen : ed ≤ st1.indices.length) :
    (partition cfg D bboxes bgn ed bbox st1).1 =
      (partition cfg D bboxes bgn ed bbox st2).1 ∧
    (partition cfg D bboxes bgn ed bbox st1).2.indices =
      (partition cfg D bboxes bgn ed bbox st2).2.indices := by
  by_cases hmax : ed - bgn ≤ cfg.max_leaf_size
  · rw [show partition cfg D bboxes bgn ed bbox st1 = (ed, st1) from by
      simp only [partition, if_pos hmax],
      show partition cfg D bboxes bgn ed bbox st2 = (ed, st2) from by
      simp only [partition, if_pos hmax]]
    exact ⟨rfl, hidx⟩
  · have hc : 1 ≤ ed - bgn := by omega
    have hlen2 : bgn + (ed - bgn) ≤ st1.indices.length := by omega
    have hlen2' : bgn + (ed - bgn) ≤ st2.indices.length := by
      rw [← hidx]; exact hlen2
    rcases hloop1 : axisLoop bboxes bgn (ed - bgn) (List.range D)
        (st1.indices, ensure_minimum_size st1.left_areas (ed - bgn - 1), none) with
      ⟨i1, l1, b1⟩
    rcases hloop2 : axisLoop bboxes bgn (ed - bgn) (List.range D)
        (st2.indices, ensure_minimum_size st2.left_areas (ed - bgn - 1), none) with
      ⟨i2, l2, b2⟩
    obtain ⟨-, hb1, hl1, hn1⟩ := axisLoop_spec bboxes bgn (ed - bgn) hc
      (List.range D) st1.indices (ensure_minimum_size st1.left_areas (ed - bgn - 1))
      none hlen2
    obtain ⟨-, hb2, hl2, hn2⟩ := axisLoop_spec bboxes bgn (ed - bgn) hc
      (List.range D) st2.indices (ensure_minimum_size st2.left_areas (ed - bgn - 1))
      none hlen2'
    rw [hloop1] at hb1 hl1 hn1
    rw [hloop2] at hb2 hl2 hn2
    have hbeq : b1 = b2 := by
      have e1 : b1 = List.foldl updF none ((List.range D).flatMap
          (fun d => axisPairs bboxes (ed - bgn) d (slice st1.indices bgn (ed - bgn)))) :=
        hb1
      have e2 : b2 = List.foldl updF none ((List.range D).flatMap
          (fun d => axisPairs bboxes (ed - bgn) d (slice st2.indices bgn (ed - bgn)))) :=
        hb2
      rw [e1, e2, hidx]
    have hieq : i1 = i2 := by
      rcases eq_or_ne (List.range D) ([] : List Nat) with hD | hD
      · have e1 : i1 = st1.indices := congrArg (fun t => t.1) (hn1 hD)
        have e2 : i2 = st2.indices := congrArg (fun t => t.1) (hn2 hD)
        rw [e1, e2, hidx]
      · have e1 : i1 = setSlice st1.indices bgn (ed - bgn)
            (sortIndices (axisLe bboxes ((List.range D).getLast hD))
              (slice st1.indices bgn (ed - bgn))) := hl1 hD
        have e2 : i2 = setSlice st2.indices bgn (ed - bgn)
            (sortIndices (axisLe bboxes ((List.range D).getLast hD))
              (slice st2.indices bgn (ed - bgn))) := hl2 hD
        rw [e1, e2, hidx]
    subst hbeq
    cases b1 with
    | none =>
      rw [partition_eq_none cfg D bboxes bgn ed bbox st1 hmax i1 l1 hloop1,
        partition_eq_none cfg D bboxes bgn ed bbox st2 hmax i2 l2 hloop2]
      exact ⟨rfl, hieq⟩
    | some t =>
      obtain ⟨bc, bd, bi⟩ := t
      rw [partition_eq_some cfg D bboxes bgn ed bbox st1 hmax i1 l1 bc bd bi hloop1,
        partition_eq_some cfg D bboxes bgn ed bbox st2 hmax i2 l2 bc bd bi hloop2]
      split_ifs with hcond hbd
      · exact ⟨rfl, hieq⟩
      · refine ⟨rfl, ?_⟩
        show sortRange bboxes bd bgn (ed - bgn) i1 =
          sortRange bboxes bd bgn (ed - bgn) i2
        rw [hieq]
      · exact ⟨rfl, hieq⟩

/-- Witness for C8 at a concrete input with two different scratch buffers. -/
theorem C8_partition_deterministic_witness :
    ([1, 0] : List Nat) = [1, 0] ∧ (2 : Nat) ≤ 2 ∧
      ((partition ⟨1, 1, 1⟩ 2 [[(0, 1), (0, 1)], [(2, 3), (0, 1)]] 0 2
          (some [(0, 3), (0, 1)]) ⟨[1, 0], [7, 8, 9]⟩).1 =
        (partition ⟨1, 1, 1⟩ 2 [[(0, 1), (0, 1)], [(2, 3), (0, 1)]] 0 2
          (some [(0, 3), (0, 1)]) ⟨[1, 0], []⟩).1 ∧
      (partition ⟨1, 1, 1⟩ 2 [[(0, 1), (0, 1)], [(2, 3), (0, 1)]] 0 2
          (some [(0, 3), (0, 1)]) ⟨[1, 0], [7, 8, 9]⟩).2.indices =
        (partition ⟨1, 1, 1⟩ 2 [[(0, 1), (0, 1)], [(2, 3), (0, 1)]] 0 2
          (some [(0, 3), (0, 1)]) ⟨[1, 0], []⟩).2.indices) :=
  ⟨rfl, by decide,
    C8_partition_deterministic ⟨1, 1, 1⟩ 2 [[(0, 1), (0, 1)], [(2, 3), (0, 1)]]
      0 2 (some [(0, 3), (0, 1)]) ⟨[1, 0], [7, 8, 9]⟩ ⟨[1, 0], []⟩ rfl (by decide)⟩

/-- C7: with count above the leaf threshold, partition returns ed exactly
when the leaf cost count * intersection_cost is at most
interior_traversal_cost + (best_split_cost / bbox half area) *
intersection_cost, where best_split_cost is the minimum over all axes
d < D and pivots i in [1, count-1] of left_area(i) * i +
right_area(i) * (count - i) on the axis-sorted sub-range. -/
theorem C7_partition_leaf_into_cost_iff (cfg : SAHConfig) (D : Nat)
    (bboxes : List Box) (bgn ed : Nat) (bbox : AABB) (st : PartitionerState)
    (hD : 1 ≤ D) (hcount : 1 < ed - bgn) (hmax : cfg.max_leaf_size < ed - bgn)
    (hlen : ed ≤ st.indices.length) :
    ((partition cfg D bboxes bgn ed bbox st).1 = ed ↔
      ((ed - bgn : Nat) : Rat) * cfg.triangle_intersection_cost ≤
        cfg.interior_node_traversal_cost +
          specBestSplitCost bboxes D bgn ed st.indices / half_surface_area bbox *
            cfg.triangle_intersection_cost) := by
  have hmax' : ¬ (ed - bgn ≤ cfg.max_leaf_size) := by omega
  have hlen2 : bgn + (ed - bgn) ≤ st.indices.length := by omega
  obtain ⟨bd, bi, hbest⟩ := axisLoop_best_eq_min bboxes D bgn ed st.indices
    (ensure_minimum_size st.left_areas (ed - bgn - 1)) hlen2 (by omega) hD
  rcases hloop : axisLoop bboxes bgn (ed - bgn) (List.range D)
      (st.indices, ensure_minimum_size st.left_areas (ed - bgn - 1), none) with
    ⟨idxs, la, best⟩
  rw [hloop] at hbest
  have hbesteq : best =
      some (specBestSplitCost bboxes D bgn ed st.indices, bd, bi) := hbest
  subst hbesteq
  have hbnd : 1 ≤ bi ∧ bi ≤ ed - bgn - 1 :=
    axisLoop_pred bboxes bgn (ed - bgn)
      (fun dd ii => 1 ≤ ii ∧ ii ≤ ed - bgn - 1) (List.range D) st.indices
      (ensure_minimum_size st.left_areas (ed - bgn - 1)) none
      (fun c dd ii h => by simp at h)
      (fun d _ ii h1 h2 => ⟨h1, h2⟩) _ bd bi (by rw [hloop])
  rw [partition_eq_some cfg D bboxes bgn ed bbox st hmax' idxs la _ bd bi hloop]
  split_ifs with hcond hbd
  · exact iff_of_true rfl hcond
  · exact iff_of_false (by show ¬ bgn + bi = ed; omega) hcond
  · exact iff_of_false (by show ¬ bgn + bi = ed; omega) hcond

/-- Witness for C7 at a concrete input. -/
theorem C7_partition_leaf_into_cost_iff_witness :
    1 ≤ (2 : Nat) ∧ 1 < (2 : Nat) - 0 ∧ 1 < (2 : Nat) - 0 ∧ (2 : Nat) ≤ 2 ∧
      ((partition ⟨1, 1, 1⟩ 2 [[(0, 1), (0, 1)], [(2, 3), (0, 1)]] 0 2
          (some [(0, 3), (0, 1)]) ⟨[1, 0], []⟩).1 = 2 ↔
        ((2 - 0 : Nat) : Rat) * (1 : Rat) ≤
          (1 : Rat) + specBestSplitCost [[(0, 1), (0, 1)], [(2, 3), (0, 1)]] 2 0 2
            [1, 0] / half_surface_area (some [(0, 3), (0, 1)]) * (1 : Rat)) :=
  ⟨by decide, by decide, by decide, by decide,
    C7_partition_leaf_into_cost_iff ⟨1, 1, 1⟩ 2 [[(0, 1), (0, 1)], [(2, 3), (0, 1)]]
      0 2 (some [(0, 3), (0, 1)]) ⟨[1, 0], []⟩ (by decide) (by decide) (by decide)
      (by decide)⟩

/-- C2 (divergence): for a range of two coincident point boxes the union
bounding box has zero half surface area, yet partition does not resolve the
range to a leaf: the unguarded division best_split_cost / 0 (NaN in IEEE
arithmetic, 0 under the exact-arithmetic convention of this embedding) makes
the leaf-cost comparison fail and the call returns the pivot 1 < end = 2. -/
theorem C2_zero_area_divergence :
    half_surface_area (compute_bbox
        [[((0 : Rat), (0 : Rat)), (0, 0), (0, 0)], [(0, 0), (0, 0), (0, 0)]]
        [0, 1] 0 2) = 0 ∧
    (partition ⟨1, 1, 1⟩ 3
        [[((0 : Rat), (0 : Rat)), (0, 0), (0, 0)], [(0, 0), (0, 0), (0, 0)]] 0 2
        (compute_bbox
          [[((0 : Rat), (0 : Rat)), (0, 0), (0, 0)], [(0, 0), (0, 0), (0, 0)]]
          [0, 1] 0 2)
        ⟨[0, 1], []⟩).1 = 1 := by
  constructor
  · with_unfolding_all decide
  · with_unfolding_all decide

end SAH

namespace SAH

/-- A sub-range view equal to an axis sort is sorted by that axis, and every
element of its left part precedes every element of its right part. -/
theorem sorted_slice_package (bboxes : List Box) (d : Nat) (res : List Nat)
    {bgn p ed : Nat} (S : List Nat)
    (hslice : slice res bgn (ed - bgn) = sortIndices (axisLe bboxes d) S)
    (hp1 : bgn ≤ p) (hp2 : p ≤ ed) :
    (slice res bgn (ed - bgn)).Pairwise
      (fun i j => axisLe bboxes d i j = true) ∧
    (∀ x ∈ (res.drop bgn).take (p - bgn),
      ∀ y ∈ (res.drop p).take (ed - p), axisLe bboxes d x y = true) := by
  have hpw : (slice res bgn (ed - bgn)).Pairwise
      (fun i j => axisLe bboxes d i j = true) := by
    rw [hslice]
    exact sortIndices_pairwise _ (fun a b => axisLe_total bboxes d a b)
      (fun a b c h1 h2 => axisLe_trans bboxes d h1 h2) S
  refine ⟨hpw, ?_⟩
  have hpw2 := hpw
  rw [slice_decomp res hp1 hp2] at hpw2
  intro x hx y hy
  exact (List.pairwise_append.mp hpw2).2.2 x hx y hy

/-- C10: when count is above the leaf threshold and partition nevertheless
returns ed (the leaf cost wins), the sub-range [bgn, ed) has still been
mutated: at return it is left sorted by the last axis scanned (axis D-1),
not restored to its ordering before the call. -/
theorem C10_no_split_leaves_last_axis_sort (cfg : SAHConfig) (D : Nat)
    (bboxes : List Box) (bgn ed : Nat) (bbox : AABB) (st : PartitionerState)
    (hD : 1 ≤ D) (hcount : 1 < ed - bgn) (hmax : cfg.max_leaf_size < ed - bgn)
    (hlen : ed ≤ st.indices.length)
    (hend : (partition cfg D bboxes bgn ed bbox st).1 = ed) :
    slice (partition cfg D bboxes bgn ed bbox st).2.indices bgn (ed - bgn) =
      sortIndices (axisLe bboxes (D - 1)) (slice st.indices bgn (ed - bgn)) := by
  have hmax' : ¬ (ed - bgn ≤ cfg.max_leaf_size) := by omega
  have hlen2 : bgn + (ed - bgn) ≤ st.indices.length := by omega
  obtain ⟨bd, bi, hbest⟩ := axisLoop_best_eq_min bboxes D bgn ed st.indices
    (ensure_minimum_size st.left_areas (ed - bgn - 1)) hlen2 (by omega) hD
  rcases hloop : axisLoop bboxes bgn (ed - bgn) (List.range D)
      (st.indices, ensure_minimum_size st.left_areas (ed - bgn - 1), none) with
    ⟨idxs, la, best⟩
  rw [hloop] at hbest
  have hbesteq : best =
      some (specBestSplitCost bboxes D bgn ed st.indices, bd, bi) := hbest
  subst hbesteq
  have hbnd : 1 ≤ bi ∧ bi ≤ ed - bgn - 1 :=
    axisLoop_pred bboxes bgn (ed - bgn)
      (fun dd ii => 1 ≤ ii ∧ ii ≤ ed - bgn - 1) (List.range D) st.indices
      (ensure_minimum_size st.left_areas (ed - bgn - 1)) none
      (fun c dd ii h => by simp at h)
      (fun d _ ii h1 h2 => ⟨h1, h2⟩) _ bd bi (by rw [hloop])
  have hrange_ne : List.range D ≠ [] := by
    intro hnil
    have := congrArg List.length hnil
    simp at this
    omega
  obtain ⟨-, -, hlast, -⟩ := axisLoop_spec bboxes bgn (ed - bgn) (by omega)
    (List.range D) st.indices (ensure_minimum_size st.left_areas (ed - bgn - 1))
    none hlen2
  rw [hloop] at hlast
  have hidxs : idxs = setSlice st.indices bgn (ed - bgn)
      (sortIndices (axisLe bboxes (D - 1)) (slice st.indices bgn (ed - bgn))) := by
    have h2 := hlast hrange_ne
    rw [range_getLast hrange_ne] at h2
    exact h2
  have hslen : (sortIndices (axisLe bboxes (D - 1))
      (slice st.indices bgn (ed - bgn))).length = ed - bgn := by
    rw [sortIndices_length]; exact slice_length hlen2
  rw [partition_eq_some cfg D bboxes bgn ed bbox st hmax' idxs la _ bd bi hloop]
    at hend ⊢
  split_ifs at hend ⊢ with hcond
  · show slice idxs bgn (ed - bgn) = _
    rw [hidxs]
    exact setSlice_slice hlen2 hslen
  · have hc2 : bgn + bi = ed := hend
    omega
  · have hc2 : bgn + bi = ed := hend
    omega

/-- Witness for C10 at a concrete input where the leaf cost wins (high
traversal cost) and the sub-range is nevertheless re-sorted. -/
theorem C10_no_split_leaves_last_axis_sort_witness :
    1 ≤ (1 : Nat) ∧ 1 < (2 : Nat) - 0 ∧ 1 < (2 : Nat) - 0 ∧ (2 : Nat) ≤ 2 ∧
      (partition ⟨1, 100, 1⟩ 1 [[(0, 1)], [(2, 5)]] 0 2 (some [(0, 5)])
        ⟨[1, 0], []⟩).1 = 2 ∧
      slice (partition ⟨1, 100, 1⟩ 1 [[(0, 1)], [(2, 5)]] 0 2 (some [(0, 5)])
          ⟨[1, 0], []⟩).2.indices 0 (2 - 0) =
        sortIndices (axisLe [[(0, 1)], [(2, 5)]] (1 - 1))
          (slice [1, 0] 0 (2 - 0)) :=
  ⟨by decide, by decide, by decide, by decide, by with_unfolding_all decide,
    C10_no_split_leaves_last_axis_sort ⟨1, 100, 1⟩ 1 [[(0, 1)], [(2, 5)]] 0 2
      (some [(0, 5)]) ⟨[1, 0], []⟩ (by decide) (by decide) (by decide) (by decide)
      (by with_unfolding_all decide)⟩

/-- C9: whenever partition returns p < ed, the sub-range [bgn, ed) is, at
return, sorted by the winning axis's ordering (re-sorted by that axis when
the winner is not the last axis scanned), so every item of [bgn, p) precedes
every item of [p, ed) in that ordering. -/
theorem C9_split_range_sorted_by_winning_axis (cfg : SAHConfig) (D : Nat)
    (bboxes : List Box) (bgn ed : Nat) (bbox : AABB) (st : PartitionerState)
    (hcount : 1 < ed - bgn) (hlen : ed ≤ st.indices.length)
    (hsplit : (partition cfg D bboxes bgn ed bbox st).1 < ed) :
    ∃ d, d < D ∧
      slice (partition cfg D bboxes bgn ed bbox st).2.indices bgn (ed - bgn) =
        sortIndices (axisLe bboxes d) (slice st.indices bgn (ed - bgn)) ∧
      (slice (partition cfg D bboxes bgn ed bbox st).2.indices bgn
          (ed - bgn)).Pairwise (fun i j => axisLe bboxes d i j = true) ∧
      (∀ x ∈ ((partition cfg D bboxes bgn ed bbox st).2.indices.drop bgn).take
          ((partition cfg D bboxes bgn ed bbox st).1 - bgn),
        ∀ y ∈ ((partition cfg D bboxes bgn ed bbox st).2.indices.drop
            (partition cfg D bboxes bgn ed bbox st).1).take
          (ed - (partition cfg D bboxes bgn ed bbox st).1),
          axisLe bboxes d x y = true) := by
  by_cases hmax : ed - bgn ≤ cfg.max_leaf_size
  · rw [show partition cfg D bboxes bgn ed bbox st = (ed, st) from by
      simp only [partition, if_pos hmax]] at hsplit
    exact absurd hsplit (lt_irrefl ed)
  · have hc : 1 ≤ ed - bgn := by omega
    have hlen2 : bgn + (ed - bgn) ≤ st.indices.length := by omega
    rcases hloop : axisLoop bboxes bgn (ed - bgn) (List.range D)
        (st.indices, ensure_minimum_size st.left_areas (ed - bgn - 1), none) with
      ⟨idxs, la, best⟩
    obtain ⟨-, -, hlast, -⟩ := axisLoop_spec bboxes bgn (ed - bgn) hc
      (List.range D) st.indices (ensure_minimum_size st.left_areas (ed - bgn - 1))
      none hlen2
    rw [hloop] at hlast
    obtain ⟨hf1, hf2, hf3, hf4⟩ := axisLoop_frame bboxes bgn (ed - bgn) hc
      (List.range D) st.indices (ensure_minimum_size st.left_areas (ed - bgn - 1))
      none hlen2
    rw [hloop] at hf1 hf2 hf3 hf4
    cases best with
    | none =>
      rw [partition_eq_none cfg D bboxes bgn ed bbox st hmax idxs la hloop] at hsplit
      exact absurd hsplit (lt_irrefl ed)
    | some t =>
      obtain ⟨bc, bd, bi⟩ := t
      have hbnd : bd < D ∧ 1 ≤ bi ∧ bi ≤ ed - bgn - 1 :=
        axisLoop_pred bboxes bgn (ed - bgn)
          (fun dd ii => dd < D ∧ 1 ≤ ii ∧ ii ≤ ed - bgn - 1) (List.range D)
          st.indices (ensure_minimum_size st.left_areas (ed - bgn - 1)) none
          (fun c dd ii h => by simp at h)
          (fun d hd ii h1 h2 => ⟨List.mem_range.mp hd, h1, h2⟩)
          bc bd bi (by rw [hloop])
      have hrange_ne : List.range D ≠ [] := by
        intro hnil
        have := congrArg List.length hnil
        simp at this
        omega
      have hidxs : slice idxs bgn (ed - bgn) =
          sortIndices (axisLe bboxes (D - 1)) (slice st.indices bgn (ed - bgn)) := by
        have h2 := hlast hrange_ne
        rw [range_getLast hrange_ne] at h2
        have hslen : (sortIndices (axisLe bboxes (D - 1))
            (slice st.indices bgn (ed - bgn))).length = ed - bgn := by
          rw [sortIndices_length]; exact slice_length hlen2
        rw [show idxs = setSlice st.indices bgn (ed - bgn)
            (sortIndices (axisLe bboxes (D - 1)) (slice st.indices bgn (ed - bgn)))
          from h2]
        exact setSlice_slice hlen2 hslen
      rw [partition_eq_some cfg D bboxes bgn ed bbox st hmax idxs la bc bd bi hloop]
        at hsplit ⊢
      split_ifs at hsplit ⊢ with hcond hbd
      · exact absurd hsplit (lt_irrefl ed)
      · -- re-sort by the winning axis bd < D - 1
        refine ⟨bd, hbnd.1, ?_, ?_⟩
        · show slice (sortRange bboxes bd bgn (ed - bgn) idxs) bgn (ed - bgn) = _
          have hslen2 : (sortIndices (axisLe bboxes bd)
              (slice idxs bgn (ed - bgn))).length = ed - bgn := by
            rw [sortIndices_length, slice_length]
            rw [hf4]; exact hlen2
          rw [sortRange, setSlice_slice (by rw [hf4]; exact hlen2) hslen2]
          exact sortIndices_axisLe_eq_of_perm bboxes bd hf3
        · have hpack := sorted_slice_package bboxes bd
            (sortRange bboxes bd bgn (ed - bgn) idxs)
            (slice st.indices bgn (ed - bgn)) ?_ (by omega : bgn ≤ bgn + bi)
            (by omega : bgn + bi ≤ ed)
          · exact hpack
          · show slice (sortRange bboxes bd bgn (ed - bgn) idxs) bgn (ed - bgn) = _
            have hslen2 : (sortIndices (axisLe bboxes bd)
                (slice idxs bgn (ed - bgn))).length = ed - bgn := by
              rw [sortIndices_length, slice_length]
              rw [hf4]; exact hlen2
            rw [sortRange, setSlice_slice (by rw [hf4]; exact hlen2) hslen2]
            exact sortIndices_axisLe_eq_of_perm bboxes bd hf3
      · -- keep the last sorted axis: the winner is bd = D - 1
        have hbdeq : bd = D - 1 := by omega
        refine ⟨bd, hbnd.1, ?_, ?_⟩
        · show slice idxs bgn (ed - bgn) = _
          rw [hbdeq]
          exact hidxs
        · have hpack := sorted_slice_package bboxes bd idxs
            (slice st.indices bgn (ed - bgn)) ?_ (by omega : bgn ≤ bgn + bi)
            (by omega : bgn + bi ≤ ed)
          · exact hpack
          · show slice idxs bgn (ed - bgn) = _
            rw [hbdeq]
            exact hidxs

/-- Witness for C9 at a concrete input. -/
theorem C9_split_range_sorted_by_winning_axis_witness :
    1 < (2 : Nat) - 0 ∧ (2 : Nat) ≤ 2 ∧
      (partition ⟨1, 1, 1⟩ 2 [[(0, 1), (0, 1)], [(2, 3), (0, 1)]] 0 2
        (some [(0, 3), (0, 1)]) ⟨[1, 0], []⟩).1 < 2 ∧
      (∃ d, d < 2 ∧
        slice (partition ⟨1, 1, 1⟩ 2 [[(0, 1), (0, 1)], [(2, 3), (0, 1)]] 0 2
            (some [(0, 3), (0, 1)]) ⟨[1, 0], []⟩).2.indices 0 (2 - 0) =
          sortIndices (axisLe [[(0, 1), (0, 1)], [(2, 3), (0, 1)]] d)
            (slice [1, 0] 0 (2 - 0)) ∧
        (slice (partition ⟨1, 1, 1⟩ 2 [[(0, 1), (0, 1)], [(2, 3), (0, 1)]] 0 2
            (some [(0, 3), (0, 1)]) ⟨[1, 0], []⟩).2.indices 0 (2 - 0)).Pairwise
          (fun i j => axisLe [[(0, 1), (0, 1)], [(2, 3), (0, 1)]] d i j = true) ∧
        (∀ x ∈ ((partition ⟨1, 1, 1⟩ 2 [[(0, 1), (0, 1)], [(2, 3), (0, 1)]] 0 2
            (some [(0, 3), (0, 1)]) ⟨[1, 0], []⟩).2.indices.drop 0).take
            ((partition ⟨1, 1, 1⟩ 2 [[(0, 1), (0, 1)], [(2, 3), (0, 1)]] 0 2
              (some [(0, 3), (0, 1)]) ⟨[1, 0], []⟩).1 - 0),
          ∀ y ∈ ((partition ⟨1, 1, 1⟩ 2 [[(0, 1), (0, 1)], [(2, 3), (0, 1)]] 0 2
              (some [(0, 3), (0, 1)]) ⟨[1, 0], []⟩).2.indices.drop
            (partition ⟨1, 1, 1⟩ 2 [[(0, 1), (0, 1)], [(2, 3), (0, 1)]] 0 2
              (some [(0, 3), (0, 1)]) ⟨[1, 0], []⟩).1).take
            (2 - (partition ⟨1, 1, 1⟩ 2 [[(0, 1), (0, 1)], [(2, 3), (0, 1)]] 0 2
              (some [(0, 3), (0, 1)]) ⟨[1, 0], []⟩).1),
            axisLe [[(0, 1), (0, 1)], [(2, 3), (0, 1)]] d x y = true)) :=
  ⟨by decide, by decide, by with_unfolding_all decide,
    C9_split_range_sorted_by_winning_axis ⟨1, 1, 1⟩ 2
      [[(0, 1), (0, 1)], [(2, 3), (0, 1)]] 0 2 (some [(0, 3), (0, 1)])
      ⟨[1, 0], []⟩ (by decide) (by decide) (by with_unfolding_all decide)⟩

end SAH
